import Mathlib

/-!
Verification of the addressing/grouping core of the dss-to-cnf repository
(`src/dss_to_zarr.py`, `src/utils/dss_tools.py`, `src/utils/aws_tools.py`).

The Python code is embedded shallowly: Python strings become `List Char`,
Python exceptions become an explicit error type `PyErr`, and the external
object store and DSS library are modelled as function-valued worlds.  The
string primitives the code relies on (`str.split`, `str.replace`,
`str.lstrip`, `pathlib.PurePath.suffix`) are reimplemented with Python's
semantics so that the embedded functions compute.
-/

/-- Python strings are modelled as lists of characters. -/
abbrev Str := List Char

/-- The Python exceptions raised by the embedded code, with enough payload to
tell the distinct raise sites apart. -/
inductive PyErr where
  /-- ValueError from check_file_exists: the key is not a DSS file. -/
  | valueErrorNotDss (key : Str)
  /-- KeyError raised by check_file_exists when head_object fails. -/
  | keyErrorNoAccess
  /-- KeyError from a direct params[...] access on a missing key. -/
  | keyErrorMissingParam
  /-- NotImplementedError for distinct input and output buckets. -/
  | notImplementedError
  /-- ValueError for missing AWS credentials in the environment. -/
  | valueErrorMissingCreds
  /-- ValueError from get_path_part for a part outside A..H. -/
  | valueErrorInvalidPart (part : Str)
  /-- IndexError from indexing a split list out of range. -/
  | indexError
  /-- ValueError from the custom F-part routine: not exactly 2 parts. -/
  | valueErrorFormat (parts : List Str)
  /-- ValueError from the custom F-part routine: year mismatch. -/
  | valueErrorContext (got : Str) (expected : Option Str)
  /-- ValueError raised by xr.concat on an empty array list. -/
  | valueErrorEmptyConcat
deriving DecidableEq

/-- Whether a `PyErr` is a Python ValueError; this is what the
`except ValueError` clause in `main`'s custom branch catches. -/
def isValueError : PyErr → Bool
  | .valueErrorNotDss _ => true
  | .valueErrorMissingCreds => true
  | .valueErrorInvalidPart _ => true
  | .valueErrorFormat _ => true
  | .valueErrorContext _ _ => true
  | .valueErrorEmptyConcat => true
  | _ => false

/-- Boolean test that `pat` is a leading segment of `s`. -/
def isPre : Str → Str → Bool
  | [], _ => true
  | _ :: _, [] => false
  | a :: as, b :: bs => a == b && isPre as bs

/-- Boolean test that `pat` occurs as a contiguous substring of `s`
(Python `pat in s`). -/
def hasOccur (pat : Str) : Str → Bool
  | [] => isPre pat []
  | c :: rest => isPre pat (c :: rest) || hasOccur pat rest

/-- Python `str.split(sep)` for a one-character separator: splits on every
occurrence, keeping empty pieces, and returns `[s]` when `sep` is absent. -/
def pySplitC (sep : Char) : Str → List Str
  | [] => [[]]
  | c :: t =>
    if c = sep then [] :: pySplitC sep t
    else (c :: (pySplitC sep t).headD []) :: (pySplitC sep t).tail

/-- Joins pieces with a one-character separator; inverse of `pySplitC`. -/
def joinC (sep : Char) : List Str → Str
  | [] => []
  | [f] => f
  | f :: rest => f ++ sep :: joinC sep rest

/-- Fuelled scanning pass of Python `str.replace`; structural on the fuel so
that the kernel can evaluate it.  With fuel at least the string's length the
fuel never runs out. -/
def replAuxF (p : Char) (ps repl : Str) : Nat → Str → Str
  | _, [] => []
  | 0, s => s
  | n + 1, c :: rest =>
    if isPre (p :: ps) (c :: rest) then repl ++ replAuxF p ps repl n (rest.drop ps.length)
    else c :: replAuxF p ps repl n rest

/-- One scanning pass of Python `str.replace`: replaces each left-to-right
non-overlapping occurrence of the nonempty pattern `p :: ps` by `repl`. -/
def replAux (p : Char) (ps repl : Str) (s : Str) : Str :=
  replAuxF p ps repl s.length s

/-- Python `str.replace(pat, repl)` over all occurrences.  Python's empty
pattern intersperses `repl` everywhere, which for the use sites here
(`repl = ""`) is the identity. -/
def pyReplace (s pat repl : Str) : Str :=
  match pat with
  | [] => s.foldr (fun c acc => repl ++ c :: acc) repl
  | p :: ps => replAux p ps repl s

/-- Python `str.lstrip(chars)`: removes leading characters drawn from the
character set `chars`. -/
def pyLstrip (s chars : Str) : Str := s.dropWhile (fun c => decide (c ∈ chars))

/-- The `name` of a POSIX `pathlib` path: the last `/`-separated component
after dropping empty and `"."` components. -/
def pathName (key : Str) : Str :=
  (((pySplitC '/' key).filter (fun c => decide (c ≠ [] ∧ c ≠ ['.']))).getLast?).getD []

/-- Index of the last `'.'` in a name, if any (Python `str.rfind('.')`
restricted to a found result). -/
def rfindDotAux : Str → Option Nat
  | [] => none
  | c :: rest =>
    match rfindDotAux rest with
    | some j => some (j + 1)
    | none => if c = '.' then some 0 else none

/-- `pathlib.PurePosixPath(key).suffix`: the last dot-suffix of the final
component; empty for dotfiles and trailing-dot names. -/
def pathSuffix (key : Str) : Str :=
  let name := pathName key
  match rfindDotAux name with
  | none => []
  | some i => if 0 < i ∧ i < name.length - 1 then name.drop i else []

/-- The fixed part labels accepted by `get_path_part`. -/
def path_parts : List Str := [['A'], ['B'], ['C'], ['D'], ['E'], ['F'], ['G'], ['H']]

/-- `get_path_part` from `src/utils/dss_tools.py`: positional extraction of
one pathname part (`pathname.split("/")[position + 1].replace(" ", "_")`),
raising ValueError for an unknown part and IndexError when the pathname
splits into too few segments. -/
def get_path_part (pathname : Str) (part : Str) : Except PyErr Str :=
  if part ∈ path_parts then
    match (pySplitC '/' pathname).get? (path_parts.indexOf part + 1) with
    | some seg => .ok (pyReplace seg [' '] ['_'])
    | none => .error .indexError
  else .error (.valueErrorInvalidPart part)

/-- One iteration of `remove_date` from `src/utils/dss_tools.py`:
`pathname.replace(pathname.split("/")[4], "")`. -/
def remove_date_one (pathname : Str) : Except PyErr Str :=
  match (pySplitC '/' pathname).get? 4 with
  | some d => .ok (pyReplace pathname d [])
  | none => .error .indexError

/-- Sequential fallible map, as performed by the for-loop in `remove_date`:
the first raised exception aborts the whole loop. -/
def mapExcept (f : Str → Except PyErr Str) : List Str → Except PyErr (List Str)
  | [] => .ok []
  | x :: xs =>
    match f x with
    | .error e => .error e
    | .ok y =>
      match mapExcept f xs with
      | .error e => .error e
      | .ok ys => .ok (y :: ys)

/-- `remove_date` from `src/utils/dss_tools.py`.  Python's `list(set(...))`
returns the distinct stems in unspecified order; the model fixes the
canonical order of `List.dedup`, which only matters up to the set of
stems. -/
def remove_date (pathnames : List Str) : Except PyErr (List Str) :=
  match mapExcept remove_date_one pathnames with
  | .error e => .error e
  | .ok stems => .ok stems.dedup

/-- The character set that Python's `lstrip("RUN:")` strips from the left. -/
def runColonChars : Str := ['R', 'U', 'N', ':']

/-- The custom F-part routine `custom_f_part_parser` from
`src/utils/dss_tools.py` (name shortened): lstrips the characters of
`"RUN:"`, splits on `-`, demands exactly two parts, and demands the first
part equal the supplied string (`None` when the caller passed none). -/
def custom_f_part (f_part : Str) (string_part : Option Str) : Except PyErr Str :=
  match pySplitC '-' (pyLstrip f_part runColonChars) with
  | [part_1, part_2] =>
    if string_part = some part_1 then .ok part_2
    else .error (.valueErrorContext part_1 string_part)
  | parts => .error (.valueErrorFormat parts)

/-- A Python dict with string keys, as an insertion-ordered association
list with duplicate-free keys maintained by `setk`. -/
abbrev PyDict (β : Type) := List (Str × β)

/-- The nested mapping event key to element key to series. -/
abbrev Dict (α : Type) := PyDict (PyDict α)

/-- Python dict lookup. -/
def alookup {β : Type} : PyDict β → Str → Option β
  | [], _ => none
  | (k, v) :: rest, key => if k = key then some v else alookup rest key

/-- Python `m[k] = v`: update in place when the key exists, else append the
new key at the end. -/
def setk {β : Type} : PyDict β → Str → β → PyDict β
  | [], k, v => [(k, v)]
  | (k0, v0) :: rest, k, v =>
    if k0 = k then (k0, v) :: rest else (k0, v0) :: setk rest k v

/-- The nested insertion performed by the extraction loop: create the inner
dict when the event key is new, then set the element key, silently
overwriting any previous series. -/
def dinsert {α : Type} : Dict α → Str → Str → α → Dict α
  | [], k, b, v => [(k, [(b, v)])]
  | (k0, inner) :: rest, k, b, v =>
    if k0 = k then (k0, setk inner b v) :: rest
    else (k0, inner) :: dinsert rest k b v

/-- Lookup of the series stored for an (event key, element key) pair. -/
def alookup2 {α : Type} (d : Dict α) (e b : Str) : Option α :=
  match alookup d e with
  | some inner => alookup inner b
  | none => none

/-- Keys are duplicate-free at both levels: the grouped dataset holds at
most one series per (event, element) pair. -/
def dictNodup {α : Type} (d : Dict α) : Prop :=
  (d.map Prod.fst).Nodup ∧ ∀ pr ∈ d, (pr.2.map Prod.fst).Nodup

/-- The per-pathname key computation of the extraction loop in
`extract_data_from_dss`: F part, B part, then the event key (the custom
transformation when one is supplied, the raw F part otherwise). -/
def resolve_entry (string_part : Option Str)
    (custom_fn : Option (Str → Option Str → Except PyErr Str)) (p : Str) :
    Except PyErr (Str × Str) :=
  match get_path_part p ['F'] with
  | .error e => .error e
  | .ok f =>
    match get_path_part p ['B'] with
    | .error e => .error e
    | .ok b =>
      match (match custom_fn with | some g => g f string_part | none => .ok f) with
      | .error e => .error e
      | .ok k => .ok (k, b)

/-- The for-loop of `extract_data_from_dss`: per pathname, resolve the keys,
read the series (total in the model) and insert under
(event key, element key). -/
def extract_data_loop {α : Type} (read : Str → α) (string_part : Option Str)
    (custom_fn : Option (Str → Option Str → Except PyErr Str)) :
    List Str → Dict α → Except PyErr (Dict α)
  | [], acc => .ok acc
  | p :: rest, acc =>
    match resolve_entry string_part custom_fn p with
    | .error e => .error e
    | .ok (k, b) =>
      extract_data_loop read string_part custom_fn rest (dinsert acc k b (read p))

/-- One loop iteration as a total step function; used to state invariants of
`extract_data_loop` (on unresolvable pathnames, where the loop raises, the
step is the identity). -/
def loopStep {α : Type} (read : Str → α) (string_part : Option Str)
    (custom_fn : Option (Str → Option Str → Except PyErr Str))
    (d : Dict α) (p : Str) : Dict α :=
  match resolve_entry string_part custom_fn p with
  | .ok (k, b) => dinsert d k b (read p)
  | .error _ => d

/-- The DSS container and its reader, as seen through the external
`pydsstools` library: a pathname listing per pattern and a total series
reader (`read_dss_data`). -/
structure DssWorld (α : Type) where
  getPathnameList : Str → List Str
  read_ts : Str → α

/-- `extract_data_from_dss` from `src/utils/dss_tools.py`: list the matching
internal pathnames, strip their timestamp fields via `remove_date`, then run
the extraction loop on the stems starting from an empty dict.  The s3
download into a scratch file is I/O modelled away into `DssWorld`. -/
def extract_data_from_dss {α : Type} (w : DssWorld α) (pattern : Str)
    (string_part : Option Str)
    (custom_fn : Option (Str → Option Str → Except PyErr Str)) :
    Except PyErr (Dict α) :=
  match remove_date (w.getPathnameList pattern) with
  | .error e => .error e
  | .ok pathnames => extract_data_loop w.read_ts string_part custom_fn pathnames []

/-- Whether an `Except` value is a success. -/
def exOk {ε β : Type} : Except ε β → Bool
  | .ok _ => true
  | .error _ => false

instance {ε β : Type} [DecidableEq ε] [DecidableEq β] :
    DecidableEq (Except ε β) := fun a b =>
  match a, b with
  | .ok x, .ok y =>
    if h : x = y then .isTrue (by rw [h]) else .isFalse (fun hh => h (by injection hh))
  | .error x, .error y =>
    if h : x = y then .isTrue (by rw [h]) else .isFalse (fun hh => h (by injection hh))
  | .ok _, .error _ => .isFalse (fun hh => by injection hh)
  | .error _, .ok _ => .isFalse (fun hh => by injection hh)

/-- Whether pathname `p` resolves to the (event key, element key) pair
`(e, b)`. -/
def hits (string_part : Option Str)
    (custom_fn : Option (Str → Option Str → Except PyErr Str))
    (e b : Str) (p : Str) : Bool :=
  decide (resolve_entry string_part custom_fn p = .ok (e, b))

/-- `check_file_exists` from `src/utils/aws_tools.py`: the suffix gate runs
first, then `head_object` (modelled by the boolean oracle `head_ok`), whose
failure is re-raised as KeyError. -/
def check_file_exists (head_ok : Str → Str → Bool) (bucket key : Str) :
    Except PyErr Unit :=
  if pathSuffix key ≠ ".dss".toList then .error (.valueErrorNotDss key)
  else if head_ok bucket key then .ok () else .error .keyErrorNoAccess

/-- A Python value of the kinds `main`'s parameters take. -/
inductive PyVal where
  | pyStr (s : Str)
  | pyBool (b : Bool)
deriving DecidableEq

/-- Python truthiness for the modelled value kinds. -/
def truthy : PyVal → Bool
  | .pyStr s => !s.isEmpty
  | .pyBool b => b

/-- The parameter dict of `main` in `src/dss_to_zarr.py`, restricted to the
keys the program mentions.  `c_part_variable` is declared in
`PLUGIN_PARAMS` and never read by `main`; `simplify` is the key that
line 66 actually reads.  The field `use_custom` models the
`use_custom_parser` entry, whose value is only truthiness-tested. -/
structure Params where
  dss_input_bucket : Option Str := none
  dss_input_key : Option Str := none
  zarr_output_bucket : Option Str := none
  zarr_output_prefix : Option Str := none
  group_id : Option Str := none
  c_part_variable : Option Str := none
  sub_group_name : Option Str := none
  use_custom : Option PyVal := none
  simplify : Option Str := none
deriving DecidableEq

/-- The optional parameter names `PLUGIN_PARAMS` declares in
`src/dss_to_zarr.py`. -/
def PLUGIN_PARAMS_optional : List Str :=
  ["group_id".toList, "c_part_variable".toList, "sub_group_name".toList,
   "use_custom_parser".toList]

/-- Presence of the two AWS credential environment variables. -/
structure Env where
  hasKeyId : Bool
  hasSecret : Bool
deriving DecidableEq

/-- The object store together with the DSS file contents behind it. -/
structure S3World (α : Type) where
  head_ok : Str → Str → Bool
  dss : DssWorld α

/-- Line 66 of `src/dss_to_zarr.py`: the variable name is read from params
key `"simplify"` with default `"FLOW"`. -/
def c_part_variable_of (p : Params) : Str := p.simplify.getD "FLOW".toList

/-- Line 67: `params.get("group_id", "main_group")`. -/
def group_id_of (p : Params) : Str := p.group_id.getD "main_group".toList

/-- Line 69: `params.get("sub_group_name", "sub_group")`. -/
def sub_group_name_of (p : Params) : Str :=
  p.sub_group_name.getD "sub_group".toList

/-- Line 68: `params.get("use_custom_parser", False)`, truthiness-tested. -/
def use_custom_of (p : Params) : Bool := (p.use_custom.map truthy).getD false

/-- Line 103: the internal pathname pattern
`f"/*/*/{c_part_variable}/*/*/*/"`. -/
def dss_internal_pathname_pattern (p : Params) : Str :=
  "/*/*/".toList ++ c_part_variable_of p ++ "/*/*/*/".toList

/-- Lines 114-131 of `src/dss_to_zarr.py`: the extraction call, with the
custom routine and `sub_group_name` as its expected string when
`use_custom_parser` is truthy, and the defaults otherwise. -/
def mainDataDict {α : Type} (w : DssWorld α) (p : Params) :
    Except PyErr (Dict α) :=
  if use_custom_of p then
    extract_data_from_dss w (dss_internal_pathname_pattern p)
      (some (sub_group_name_of p)) (some custom_f_part)
  else
    extract_data_from_dss w (dss_internal_pathname_pattern p) none none

/-- What `main` persists on success: the datatree layout
root(group_id)/group(group_id)/sub(sub_group_name), the dataset's single
variable name, the destination key, the grouped data, and the always-empty
successes/failures lists of the returned dict. -/
structure WrittenOutput (α : Type) where
  rootName : Str
  groupName : Str
  subGroupName : Str
  varName : Str
  zarrKey : Str
  data : Dict α
  successes : List Str
  failures : List Str
deriving DecidableEq

/-- Outcome of one `main` invocation: an uncaught exception, a logged error
followed by a bare `return` (no output written), or a written output. -/
inductive MainOutcome (α : Type) where
  | raised (e : PyErr)
  | earlyReturn (e : PyErr)
  | wrote (o : WrittenOutput α)
deriving DecidableEq

/-- `main` from `src/dss_to_zarr.py`: parameter defaults, the same-bucket
check (a raw dict access, so KeyError on missing buckets), the credential
checks, the pre-flight `check_file_exists` whose ValueError/KeyError are
caught, logged and turned into a bare return, then extraction (the custom
branch alone is wrapped in `try/except ValueError`), then assembly and the
datatree write (`xr.concat` raises on an empty extraction result). -/
def mainModel {α : Type} (p : Params) (env : Env) (w : S3World α) :
    MainOutcome α :=
  match p.dss_input_bucket, p.zarr_output_bucket with
  | none, _ => .raised .keyErrorMissingParam
  | some _, none => .raised .keyErrorMissingParam
  | some ib, some ob =>
    if ib ≠ ob then .raised .notImplementedError
    else if !env.hasKeyId then .raised .valueErrorMissingCreds
    else if !env.hasSecret then .raised .valueErrorMissingCreds
    else
      match check_file_exists w.head_ok ib (p.dss_input_key.getD []) with
      | .error e => .earlyReturn e
      | .ok _ =>
        match mainDataDict w.dss p with
        | .error e =>
          if use_custom_of p && isValueError e then .earlyReturn e
          else .raised e
        | .ok data_dict =>
          if data_dict.isEmpty then .raised .valueErrorEmptyConcat
          else .wrote ⟨group_id_of p, group_id_of p, sub_group_name_of p,
            c_part_variable_of p,
            "s3://".toList ++ ob ++ ['/'] ++ p.zarr_output_prefix.getD "[]".toList,
            data_dict, [], []⟩

/-- A syntactically valid 8-field slash-delimited pathname
`/A/B/C/D/E/F/G/H/` built from its fields. -/
def mkPathname (fs : List Str) : Str := '/' :: (joinC '/' fs ++ ['/'])

/-- Modelled from the spec: the claim wording "the fixed literal prefix
RUN: is stripped before splitting"; removes one leading literal `"RUN:"`
when present.  Used only to compare the spec's stripping against the
source's `lstrip`. -/
def specStripRunPrefix : Str → Str
  | 'R' :: 'U' :: 'N' :: ':' :: rest => rest
  | s => s

/-- Concrete parameters used to exhibit the ignored `c_part_variable`
option: every required key set, `c_part_variable` set to `"PRECIP"`, the
`simplify` key absent. -/
def c1Params : Params :=
  ⟨some "b".toList, some "k.dss".toList, some "b".toList, some "out.zarr".toList,
   none, some "PRECIP".toList, none, none, none⟩

/-- Concrete world whose DSS file answers only the `FLOW` pattern. -/
def flowWorld : S3World Nat :=
  ⟨fun _ _ => true,
   ⟨fun pat => if pat = "/*/*/FLOW/*/*/*/".toList
      then ["/a/elem/FLOW/01JAN/1Hour/RUN:r/".toList] else [],
    fun _ => 0⟩⟩

/-- Concrete parameters whose source key `"model.dss/"` does not end in
`".dss"`. -/
def c5xParams : Params :=
  ⟨some "b".toList, some "model.dss/".toList, some "b".toList,
   some "out.zarr".toList, none, none, none, none, none⟩

/-- Concrete parameters whose source key `"data.txt"` has the wrong
suffix. -/
def c5wParams : Params :=
  ⟨some "b".toList, some "data.txt".toList, some "b".toList,
   some "out.zarr".toList, none, none, none, none, none⟩

/-- A trivial world: every head request succeeds, the DSS file is empty. -/
def trivWorld : S3World Nat := ⟨fun _ _ => true, ⟨fun _ => [], fun _ => 0⟩⟩

/-- Concrete parameters selecting the custom resolver with sub-group name
`"Y001"`. -/
def c10Params : Params :=
  ⟨some "b".toList, some "k.dss".toList, some "b".toList, some "out.zarr".toList,
   none, none, some "Y001".toList, some (.pyBool true), none⟩

/-!
## Theorems

Infrastructure lemmas about the embedded string primitives come first, then
one theorem per claim (with witnesses and counterexamples).
-/

theorem replAuxF_congr (p : Char) (ps repl : Str) :
    ∀ (n : Nat) (m : Nat) (s : Str), s.length ≤ n → s.length ≤ m →
      replAuxF p ps repl n s = replAuxF p ps repl m s := by
  intro n
  induction n with
  | zero =>
    intro m s hn _
    have hs : s = [] := List.length_eq_zero.mp (Nat.le_zero.mp hn)
    subst hs
    cases m <;> rfl
  | succ n ih =>
    intro m s hn hm
    cases s with
    | nil => cases m <;> rfl
    | cons c rest =>
      cases m with
      | zero => simp at hm
      | succ m =>
        simp only [replAuxF]
        by_cases hp : isPre (p :: ps) (c :: rest) = true
        · rw [if_pos hp, if_pos hp]
          have h1 : (rest.drop ps.length).length ≤ n := by
            simp only [List.length_drop]
            simp at hn
            omega
          have h2 : (rest.drop ps.length).length ≤ m := by
            simp only [List.length_drop]
            simp at hm
            omega
          rw [ih m _ h1 h2]
        · rw [if_neg hp, if_neg hp]
          have h1 : rest.length ≤ n := by simp at hn; omega
          have h2 : rest.length ≤ m := by simp at hm; omega
          rw [ih m _ h1 h2]

theorem replAux_nil (p : Char) (ps repl : Str) : replAux p ps repl [] = [] := rfl

theorem replAux_pos {p : Char} {ps : Str} (repl : Str) {c : Char} {rest : Str}
    (h : isPre (p :: ps) (c :: rest) = true) :
    replAux p ps repl (c :: rest) = repl ++ replAux p ps repl (rest.drop ps.length) := by
  show replAuxF p ps repl (rest.length + 1) (c :: rest) = _
  simp only [replAuxF, if_pos h]
  rw [replAuxF_congr p ps repl rest.length (rest.drop ps.length).length _
    (by simp [List.length_drop]) (le_refl _)]
  rfl

theorem replAux_neg {p : Char} {ps : Str} (repl : Str) {c : Char} {rest : Str}
    (h : ¬ isPre (p :: ps) (c :: rest) = true) :
    replAux p ps repl (c :: rest) = c :: replAux p ps repl rest := by
  show replAuxF p ps repl (rest.length + 1) (c :: rest) = _
  simp only [replAuxF, if_neg h]
  rfl

theorem isPre_append (a t : Str) : isPre a (a ++ t) = true := by
  induction a with
  | nil => rfl
  | cons c cs ih => simp [isPre, ih]

theorem isPre_exists {a s : Str} (h : isPre a s = true) : ∃ t, s = a ++ t := by
  induction a generalizing s with
  | nil => exact ⟨s, rfl⟩
  | cons c cs ih =>
    cases s with
    | nil => simp [isPre] at h
    | cons b bs =>
      simp only [isPre, Bool.and_eq_true, beq_iff_eq] at h
      obtain ⟨t, ht⟩ := ih h.2
      exact ⟨t, by simp [← h.1, ht]⟩

theorem isPre_mono {a s : Str} (t : Str) (h : isPre a s = true) :
    isPre a (s ++ t) = true := by
  obtain ⟨u, rfl⟩ := isPre_exists h
  rw [List.append_assoc]
  exact isPre_append a (u ++ t)

theorem pySplitC_ne_nil (sep : Char) (s : Str) : pySplitC sep s ≠ [] := by
  cases s with
  | nil => simp [pySplitC]
  | cons c t =>
    simp only [pySplitC]
    split <;> simp

theorem pySplitC_eq_cons (sep : Char) (s : Str) :
    pySplitC sep s = (pySplitC sep s).headD [] :: (pySplitC sep s).tail := by
  have h := pySplitC_ne_nil sep s
  cases hh : pySplitC sep s with
  | nil => exact absurd hh h
  | cons a l => simp

theorem pySplitC_append_no_sep (sep : Char) (a t : Str) (ha : sep ∉ a) :
    pySplitC sep (a ++ t) =
      (a ++ (pySplitC sep t).headD []) :: (pySplitC sep t).tail := by
  induction a with
  | nil => simpa using pySplitC_eq_cons sep t
  | cons c cs ih =>
    have hc : ¬ c = sep := fun h => ha (by simp [h])
    have hcs : sep ∉ cs := fun h => ha (List.mem_cons_of_mem _ h)
    simp only [List.cons_append, pySplitC, if_neg hc, List.append_eq]
    rw [ih hcs]
    simp

theorem pySplitC_field (sep : Char) (a t : Str) (ha : sep ∉ a) :
    pySplitC sep (a ++ sep :: t) = a :: pySplitC sep t := by
  rw [pySplitC_append_no_sep sep a _ ha]
  simp only [pySplitC, if_pos rfl]
  simp [← pySplitC_eq_cons sep t]

theorem pySplitC_no_sep (sep : Char) (a : Str) (ha : sep ∉ a) :
    pySplitC sep a = [a] := by
  have := pySplitC_append_no_sep sep a [] ha
  simpa [pySplitC] using this

theorem pySplitC_mem_no_sep (sep : Char) (s : Str) :
    ∀ f ∈ pySplitC sep s, sep ∉ f := by
  induction s with
  | nil =>
    intro f hf
    simp [pySplitC] at hf
    simp [hf]
  | cons c t ih =>
    intro f hf
    by_cases hc : c = sep
    · simp only [pySplitC, if_pos hc, List.mem_cons] at hf
      rcases hf with hf | hf
      · simp [hf]
      · exact ih f hf
    · simp only [pySplitC, if_neg hc, List.mem_cons] at hf
      rcases hf with hf | hf
      · subst hf
        intro hmem
        rcases List.mem_cons.mp hmem with h | h
        · exact hc h.symm
        · have : (pySplitC sep t).headD [] ∈ pySplitC sep t := by
            rw [pySplitC_eq_cons sep t]
            exact List.mem_cons_self _ _
          exact ih _ this h
      · have : f ∈ pySplitC sep t := by
          rw [pySplitC_eq_cons sep t]
          exact List.mem_cons_of_mem _ hf
        exact ih f this

theorem pySplitC_headD_pre (sep : Char) (s : Str) :
    ∃ t, s = (pySplitC sep s).headD [] ++ t := by
  induction s with
  | nil => exact ⟨[], by simp [pySplitC]⟩
  | cons c t ih =>
    by_cases hc : c = sep
    · exact ⟨c :: t, by simp [pySplitC, hc]⟩
    · obtain ⟨u, hu⟩ := ih
      refine ⟨u, ?_⟩
      simp only [pySplitC, if_neg hc, List.headD_cons, List.cons_append]
      exact congrArg (c :: ·) hu

theorem joinC_cons_cons (sep : Char) (c : Char) (h : Str) (tl : List Str) :
    joinC sep ((c :: h) :: tl) = c :: joinC sep (h :: tl) := by
  cases tl <;> simp [joinC]

theorem joinC_pySplitC (sep : Char) (s : Str) :
    joinC sep (pySplitC sep s) = s := by
  induction s with
  | nil => rfl
  | cons c t ih =>
    by_cases hc : c = sep
    · simp only [pySplitC, if_pos hc]
      rw [pySplitC_eq_cons sep t]
      simp only [joinC]
      rw [← pySplitC_eq_cons sep t, ih]
      simp [hc]
    · simp only [pySplitC, if_neg hc]
      rw [joinC_cons_cons, ← pySplitC_eq_cons sep t, ih]

theorem pyReplace_empty_pat (s : Str) : pyReplace s [] [] = s := by
  simp only [pyReplace]
  induction s with
  | nil => rfl
  | cons c t ih => simp [ih]

theorem pyReplace_self (d : Str) : pyReplace d d [] = [] := by
  cases d with
  | nil => rfl
  | cons p ps =>
    simp only [pyReplace]
    have h : isPre (p :: ps) (p :: ps) = true := by
      have := isPre_append (p :: ps) []
      simpa using this
    rw [replAux_pos [] h]
    simp [List.drop_length, replAux_nil]

theorem replAux_no_occur {p : Char} {ps : Str} (repl : Str) {s : Str}
    (h : hasOccur (p :: ps) s = false) : replAux p ps repl s = s := by
  induction s with
  | nil => exact replAux_nil p ps repl
  | cons c rest ih =>
    simp only [hasOccur, Bool.or_eq_false_iff] at h
    rw [replAux_neg repl (by simp [h.1])]
    rw [ih h.2]

theorem replAux_append_self (p : Char) (ps h : Str) :
    replAux p ps [] ((p :: ps) ++ h) = replAux p ps [] h := by
  have hpre : isPre (p :: ps) (p :: (ps ++ h)) = true := by
    have := isPre_append (p :: ps) h
    simpa using this
  rw [List.cons_append, replAux_pos [] hpre]
  simp [List.drop_left]

theorem split_replace_aux (sep p : Char) (ps : Str) (hsep : sep ∉ p :: ps) :
    ∀ (n : Nat) (s : Str), s.length ≤ n →
      pySplitC sep (replAux p ps [] s) =
        (pySplitC sep s).map (fun f => replAux p ps [] f) := by
  intro n
  induction n with
  | zero =>
    intro s hs
    have : s = [] := List.length_eq_zero.mp (Nat.le_zero.mp hs)
    subst this
    simp [replAux_nil, pySplitC]
  | succ n ih =>
    intro s hs
    cases s with
    | nil => simp [replAux_nil, pySplitC]
    | cons c rest =>
      by_cases hp : isPre (p :: ps) (c :: rest) = true
      · obtain ⟨t, ht⟩ := isPre_exists hp
        rw [List.cons_append] at ht
        injection ht with h1 h2
        rw [replAux_pos [] hp]
        have hdrop : rest.drop ps.length = t := by
          rw [h2]
          exact List.drop_left ps t
        rw [hdrop, List.nil_append]
        have hlt : t.length ≤ n := by
          have : rest.length = ps.length + t.length := by simp [h2]
          simp at hs
          omega
        rw [ih t hlt]
        have hct : (c :: rest) = (p :: ps) ++ t := by simp [h1, h2]
        rw [hct, pySplitC_append_no_sep sep (p :: ps) t hsep]
        conv_lhs => rw [pySplitC_eq_cons sep t]
        simp only [List.map_cons]
        congr 1
        exact (replAux_append_self p ps _).symm
      · rw [replAux_neg [] hp]
        have ihr := ih rest (by simp at hs; omega)
        by_cases hc : c = sep
        · simp [pySplitC, hc, ihr, replAux_nil]
        · obtain ⟨hh, tl, hrest⟩ : ∃ hh tl, pySplitC sep rest = hh :: tl := by
            cases hhh : pySplitC sep rest with
            | nil => exact absurd hhh (pySplitC_ne_nil sep rest)
            | cons a l => exact ⟨a, l, rfl⟩
          have hnp : ¬ isPre (p :: ps) (c :: hh) = true := by
            intro hcon
            obtain ⟨u, hu⟩ := pySplitC_headD_pre sep rest
            rw [hrest] at hu
            simp only [List.headD_cons] at hu
            apply hp
            have hcc : c :: rest = (c :: hh) ++ u := by simp [hu]
            rw [hcc]
            exact isPre_mono u hcon
          simp only [pySplitC, if_neg hc, ihr, hrest, List.map_cons,
            List.headD_cons, List.tail_cons]
          rw [replAux_neg [] hnp]

theorem split_replace (sep : Char) (pat : Str) (hsep : sep ∉ pat) (s : Str) :
    pySplitC sep (pyReplace s pat []) =
      (pySplitC sep s).map (fun f => pyReplace f pat []) := by
  cases pat with
  | nil =>
    have hfun : (fun f : Str => pyReplace f [] []) = fun f : Str => f :=
      funext fun f => pyReplace_empty_pat f
    rw [pyReplace_empty_pat, hfun]
    simp
  | cons p ps =>
    show pySplitC sep (replAux p ps [] s) =
      (pySplitC sep s).map (fun f => replAux p ps [] f)
    exact split_replace_aux sep p ps hsep s.length s (le_refl _)

theorem pyReplace_no_occur {pat s : Str} (hne : pat ≠ [])
    (h : hasOccur pat s = false) : pyReplace s pat [] = s := by
  cases pat with
  | nil => exact absurd rfl hne
  | cons p ps => exact replAux_no_occur [] h

theorem mapExcept_ok_mem {f : Str → Except PyErr Str} :
    ∀ {l r : List Str}, mapExcept f l = .ok r → ∀ y ∈ r, ∃ x ∈ l, f x = .ok y := by
  intro l
  induction l with
  | nil =>
    intro r h y hy
    simp only [mapExcept] at h
    injection h with h
    rw [← h] at hy
    simp at hy
  | cons x xs ih =>
    intro r h y hy
    simp only [mapExcept] at h
    cases hfx : f x with
    | error e => rw [hfx] at h; exact absurd h (by simp)
    | ok v =>
      rw [hfx] at h
      cases hxs : mapExcept f xs with
      | error e => rw [hxs] at h; exact absurd h (by simp)
      | ok ys =>
        rw [hxs] at h
        injection h with h
        rw [← h] at hy
        rcases List.mem_cons.mp hy with rfl | hy
        · exact ⟨x, List.mem_cons_self _ _, hfx⟩
        · obtain ⟨x0, hx0, hfx0⟩ := ih hxs y hy
          exact ⟨x0, List.mem_cons_of_mem _ hx0, hfx0⟩

theorem mapExcept_ok_forward {f : Str → Except PyErr Str} :
    ∀ {l r : List Str}, mapExcept f l = .ok r →
      ∀ x ∈ l, ∀ y, f x = .ok y → y ∈ r := by
  intro l
  induction l with
  | nil =>
    intro r _ x hx
    simp at hx
  | cons a xs ih =>
    intro r h x hx y hfy
    simp only [mapExcept] at h
    cases hfa : f a with
    | error e => rw [hfa] at h; exact absurd h (by simp)
    | ok v =>
      rw [hfa] at h
      cases hxs : mapExcept f xs with
      | error e => rw [hxs] at h; exact absurd h (by simp)
      | ok ys =>
        rw [hxs] at h
        injection h with h
        rcases List.mem_cons.mp hx with rfl | hx
        · rw [hfa] at hfy
          injection hfy with hfy
          rw [← h, hfy]
          exact List.mem_cons_self _ _
        · rw [← h]
          exact List.mem_cons_of_mem _ (ih hxs x hx y hfy)

theorem mapExcept_id {f : Str → Except PyErr Str} :
    ∀ {l : List Str}, (∀ x ∈ l, f x = .ok x) → mapExcept f l = .ok l := by
  intro l
  induction l with
  | nil => intro _; rfl
  | cons x xs ih =>
    intro h
    simp only [mapExcept]
    rw [h x (List.mem_cons_self _ _), ih (fun y hy => h y (List.mem_cons_of_mem _ hy))]

theorem remove_date_one_fix {p q : Str} (h : remove_date_one p = .ok q) :
    remove_date_one q = .ok q := by
  unfold remove_date_one at h ⊢
  cases hd : (pySplitC '/' p).get? 4 with
  | none => rw [hd] at h; exact absurd h (by simp)
  | some d =>
    rw [hd] at h
    injection h with h
    have hnos : '/' ∉ d := pySplitC_mem_no_sep '/' p d (List.get?_mem hd)
    have hsplit := split_replace '/' d hnos p
    have hq4 : (pySplitC '/' q).get? 4 = some (pyReplace d d []) := by
      rw [← h, hsplit, List.get?_map, hd]
      rfl
    rw [pyReplace_self] at hq4
    rw [hq4]
    show Except.ok (pyReplace q [] []) = Except.ok q
    rw [pyReplace_empty_pat]

theorem hasOccur_nil_pat (s : Str) : hasOccur [] s = true := by
  cases s <;> simp [hasOccur, isPre]

/-- C8: `deduplicate_by_time_field` (source name `remove_date`) is
idempotent: whenever it succeeds on a list of pathnames, running it again
on its own output returns that very output, hence in particular the same
set of stems. -/
theorem c8_remove_date_idempotent (l r : List Str) (h : remove_date l = .ok r) :
    remove_date r = .ok r := by
  unfold remove_date at h ⊢
  cases hm : mapExcept remove_date_one l with
  | error e => rw [hm] at h; exact absurd h (by simp)
  | ok stems =>
    rw [hm] at h
    injection h with h
    have hfix : ∀ q ∈ r, remove_date_one q = .ok q := by
      intro q hq
      rw [← h] at hq
      obtain ⟨x, _, hfx⟩ := mapExcept_ok_mem hm q (List.mem_dedup.mp hq)
      exact remove_date_one_fix hfx
    rw [mapExcept_id hfix, ← h]
    show Except.ok stems.dedup.dedup = Except.ok stems.dedup
    rw [List.dedup_eq_self.mpr (List.nodup_dedup stems)]

/-- C8 witness: a concrete one-element run of `remove_date`, its output fed
back in unchanged. -/
theorem c8_remove_date_idempotent_witness :
    remove_date ["/A/B/C//1Hour/RUN:r/".toList] =
      .ok ["/A/B/C//1Hour/RUN:r/".toList] :=
  c8_remove_date_idempotent ["/A/B/C/01JAN/1Hour/RUN:r/".toList]
    ["/A/B/C//1Hour/RUN:r/".toList] (by decide)

/-- C3 (amended): two pathnames identical except in the position-4 (D)
field collapse to one stem provided neither pathname's D-field value occurs
as a substring of any other field (Python's `replace` removes every
occurrence of the D string, not only the one at position 4).  Both map to
the same stem, and the stem appears exactly once in any successful
`remove_date` result containing the first pathname (it is a member of the
duplicate-free result). -/
theorem c3_remove_date_amended (p1 p2 d1 d2 q : Str) (u v : List Str)
    (h1 : pySplitC '/' p1 = u ++ d1 :: v) (h2 : pySplitC '/' p2 = u ++ d2 :: v)
    (hu : u.length = 4)
    (hocc1 : ∀ f ∈ u ++ v, hasOccur d1 f = false)
    (hocc2 : ∀ f ∈ u ++ v, hasOccur d2 f = false)
    (hq : remove_date_one p1 = .ok q) :
    remove_date_one p2 = .ok q ∧
      ∀ l r, p1 ∈ l → remove_date l = .ok r → q ∈ r ∧ r.Nodup := by
  have hune : u ≠ [] := by intro h; rw [h] at hu; simp at hu
  obtain ⟨u0, urest, hu0⟩ : ∃ u0 urest, u = u0 :: urest := by
    cases u with
    | nil => exact absurd rfl hune
    | cons a l => exact ⟨a, l, rfl⟩
  have hd1ne : d1 ≠ [] := by
    intro hd
    have := hocc1 u0 (by rw [hu0]; simp)
    rw [hd, hasOccur_nil_pat] at this
    simp at this
  have hd2ne : d2 ≠ [] := by
    intro hd
    have := hocc2 u0 (by rw [hu0]; simp)
    rw [hd, hasOccur_nil_pat] at this
    simp at this
  have hget1 : (pySplitC '/' p1).get? 4 = some d1 := by
    rw [h1, ← hu, List.get?_append_right (le_refl _)]
    simp
  have hget2 : (pySplitC '/' p2).get? 4 = some d2 := by
    rw [h2, ← hu, List.get?_append_right (le_refl _)]
    simp
  have hd1nos : '/' ∉ d1 :=
    pySplitC_mem_no_sep '/' p1 d1 (by rw [h1]; exact List.mem_append_right _ (List.mem_cons_self _ _))
  have hd2nos : '/' ∉ d2 :=
    pySplitC_mem_no_sep '/' p2 d2 (by rw [h2]; exact List.mem_append_right _ (List.mem_cons_self _ _))
  have hqval : q = pyReplace p1 d1 [] := by
    unfold remove_date_one at hq
    rw [hget1] at hq
    injection hq with hq
    exact hq.symm
  have hfields : ∀ (p d : Str), pySplitC '/' p = u ++ d :: v → '/' ∉ d → d ≠ [] →
      (∀ f ∈ u ++ v, hasOccur d f = false) →
      pySplitC '/' (pyReplace p d []) = u ++ [] :: v := by
    intro p d hp hnos hne hocc
    rw [split_replace '/' d hnos p, hp, List.map_append, List.map_cons]
    rw [pyReplace_self]
    have hmu : List.map (fun f => pyReplace f d []) u = u := by
      rw [List.map_congr_left (fun a ha => pyReplace_no_occur hne (hocc a (List.mem_append_left _ ha)))]
      exact List.map_id u
    have hmv : List.map (fun f => pyReplace f d []) v = v := by
      rw [List.map_congr_left (fun a ha => pyReplace_no_occur hne (hocc a (List.mem_append_right _ ha)))]
      exact List.map_id v
    rw [hmu, hmv]
  have hq1 : pySplitC '/' (pyReplace p1 d1 []) = u ++ [] :: v :=
    hfields p1 d1 h1 hd1nos hd1ne hocc1
  have hq2 : pySplitC '/' (pyReplace p2 d2 []) = u ++ [] :: v :=
    hfields p2 d2 h2 hd2nos hd2ne hocc2
  have hsame : pyReplace p2 d2 [] = q := by
    rw [hqval]
    rw [← joinC_pySplitC '/' (pyReplace p2 d2 []), ← joinC_pySplitC '/' (pyReplace p1 d1 [])]
    rw [hq1, hq2]
  constructor
  · unfold remove_date_one
    rw [hget2]
    show Except.ok (pyReplace p2 d2 []) = Except.ok q
    rw [hsame]
  · intro l r hmem hrem
    unfold remove_date at hrem
    cases hm : mapExcept remove_date_one l with
    | error e => rw [hm] at hrem; exact absurd hrem (by simp)
    | ok stems =>
      rw [hm] at hrem
      injection hrem with hrem
      have hqs : q ∈ stems := mapExcept_ok_forward hm p1 hmem q hq
      constructor
      · rw [← hrem]
        exact List.mem_dedup.mpr hqs
      · rw [← hrem]
        exact List.nodup_dedup stems

/-- C3 counterexample: `"/X/B/C/X/E/F/"` and `"/X/B/C/D/E/F/"` are identical
except in the position-4 (D) field, yet `remove_date` keeps two distinct
stems because the first pathname's D value `"X"` also occurs in its A field
and is removed there too. -/
theorem c3_remove_date_counterexample :
    (pySplitC '/' "/X/B/C/X/E/F/".toList).take 4 =
        (pySplitC '/' "/X/B/C/D/E/F/".toList).take 4 ∧
      (pySplitC '/' "/X/B/C/X/E/F/".toList).drop 5 =
        (pySplitC '/' "/X/B/C/D/E/F/".toList).drop 5 ∧
      remove_date ["/X/B/C/X/E/F/".toList, "/X/B/C/D/E/F/".toList] =
        .ok ["//B/C//E/F/".toList, "/X/B/C//E/F/".toList] ∧
      "//B/C//E/F/".toList ≠ "/X/B/C//E/F/".toList := by
  decide

/-- C3 witness: two concrete pathnames differing only in the D field whose
timestamp values occur nowhere else collapse to the single stem
`"/A/B/C//1Hour/RUN:r/"`. -/
theorem c3_remove_date_amended_witness :
    remove_date_one "/A/B/C/02FEB/1Hour/RUN:r/".toList =
        .ok "/A/B/C//1Hour/RUN:r/".toList ∧
      ∀ l r, "/A/B/C/01JAN/1Hour/RUN:r/".toList ∈ l → remove_date l = .ok r →
        "/A/B/C//1Hour/RUN:r/".toList ∈ r ∧ r.Nodup :=
  c3_remove_date_amended "/A/B/C/01JAN/1Hour/RUN:r/".toList
    "/A/B/C/02FEB/1Hour/RUN:r/".toList "01JAN".toList "02FEB".toList
    "/A/B/C//1Hour/RUN:r/".toList
    [[], "A".toList, "B".toList, "C".toList]
    ["1Hour".toList, "RUN:r".toList, []]
    (by decide) (by decide) (by decide) (by decide) (by decide) (by decide)

theorem dropWhile_append_sat {p : Char → Bool} {a t : Str}
    (h : ∀ c ∈ a, p c = true) :
    List.dropWhile p (a ++ t) = List.dropWhile p t := by
  induction a with
  | nil => rfl
  | cons c cs ih =>
    rw [List.cons_append, List.dropWhile_cons, if_pos (h c (List.mem_cons_self _ _))]
    exact ih fun x hx => h x (List.mem_cons_of_mem _ hx)

/-- C2 (amended): the custom resolver succeeds on
`"RUN:" ++ ctx ++ "-" ++ sfx` and returns `sfx`, provided neither part
contains `-` and additionally `ctx` does not begin with one of the
characters `R`, `U`, `N`, `:` (the source strips with `lstrip("RUN:")`,
which removes every leading character of that set, not just the literal
prefix). -/
theorem c2_custom_resolver_amended (ctx sfx : Str)
    (hctx : '-' ∉ ctx) (hsfx : '-' ∉ sfx)
    (hhead : ∀ c, ctx.head? = some c → c ∉ runColonChars) :
    custom_f_part ("RUN:".toList ++ ctx ++ '-' :: sfx) (some ctx) = .ok sfx := by
  unfold custom_f_part
  have hstrip : pyLstrip ("RUN:".toList ++ ctx ++ '-' :: sfx) runColonChars =
      ctx ++ '-' :: sfx := by
    unfold pyLstrip
    rw [List.append_assoc]
    rw [dropWhile_append_sat (by decide)]
    cases hc : ctx with
    | nil => simp [List.dropWhile_cons, runColonChars]
    | cons c0 cs =>
      have hc0 : c0 ∉ runColonChars := hhead c0 (by rw [hc]; rfl)
      rw [List.cons_append, List.dropWhile_cons, if_neg (by simp [hc0])]
  rw [hstrip, pySplitC_field '-' ctx sfx hctx, pySplitC_no_sep '-' sfx hsfx]
  simp

/-- C2 counterexample: the claim fails as stated when the context begins
with a character of the set `{R, U, N, :}` — for `"RUN:N1-E1"` with
expected context `"N1"` (no `-` in either part) the resolver raises the
mismatch ValueError instead of returning `"E1"`, because `lstrip("RUN:")`
also strips the leading `N` of the context. -/
theorem c2_custom_resolver_counterexample :
    ('-' ∉ "N1".toList) ∧ ('-' ∉ "E1".toList) ∧
      "RUN:".toList ++ "N1".toList ++ '-' :: "E1".toList = "RUN:N1-E1".toList ∧
      custom_f_part "RUN:N1-E1".toList (some "N1".toList) =
        .error (.valueErrorContext "1".toList (some "N1".toList)) := by
  decide

/-- C2 witness: the spec's own example, on which the amended claim holds. -/
theorem c2_custom_resolver_amended_witness :
    custom_f_part ("RUN:".toList ++ "Y001".toList ++ '-' :: "E0001".toList)
      (some "Y001".toList) = .ok "E0001".toList :=
  c2_custom_resolver_amended "Y001".toList "E0001".toList (by decide) (by decide)
    (by decide)

/-- C4 (amended): with "prefix-stripped" read as what the source computes —
the field stripped of every leading character in `{R, U, N, :}` — the
resolver raises the format ValueError exactly when the split does not have
two parts, and the mismatch ValueError when it has two parts whose first
differs from the expected string; the two concrete examples of the claim
behave as stated. -/
theorem c4_custom_resolver_amended (f_part : Str) (sp : Option Str) :
    ((pySplitC '-' (pyLstrip f_part runColonChars)).length ≠ 2 →
      custom_f_part f_part sp =
        .error (.valueErrorFormat (pySplitC '-' (pyLstrip f_part runColonChars)))) ∧
    (∀ p1 p2, pySplitC '-' (pyLstrip f_part runColonChars) = [p1, p2] →
      sp ≠ some p1 →
      custom_f_part f_part sp = .error (.valueErrorContext p1 sp)) ∧
    custom_f_part "RUN:Y001-E0001".toList (some "Y002".toList) =
      .error (.valueErrorContext "Y001".toList (some "Y002".toList)) ∧
    custom_f_part "RUN:Y001-E0001-X".toList sp =
      .error (.valueErrorFormat ["Y001".toList, "E0001".toList, "X".toList]) := by
  refine ⟨?_, ?_, by decide, rfl⟩
  · intro h
    cases hp : pySplitC '-' (pyLstrip f_part runColonChars) with
    | nil => unfold custom_f_part; rw [hp]
    | cons a tl =>
      cases tl with
      | nil => unfold custom_f_part; rw [hp]
      | cons b tl2 =>
        cases tl2 with
        | nil => rw [hp] at h; simp at h
        | cons c tl3 => unfold custom_f_part; rw [hp]
  · intro p1 p2 hp hsp
    unfold custom_f_part
    rw [hp]
    simp [hsp]

/-- C4 counterexample: read with the spec's literal "prefix-stripped"
wording the claim is false: for `"RUN:NA-B"` the prefix-stripped field
`"NA-B"` splits into exactly two parts whose first, `"NA"`, differs from
the expected context `"A"`, yet the resolver succeeds (the source's
`lstrip` also removed the `N`). -/
theorem c4_custom_resolver_counterexample :
    pySplitC '-' (specStripRunPrefix "RUN:NA-B".toList) =
        ["NA".toList, "B".toList] ∧
      "NA".toList ≠ "A".toList ∧
      custom_f_part "RUN:NA-B".toList (some "A".toList) = .ok "B".toList := by
  decide

/-- C4 witness: a three-part input raises the format ValueError. -/
theorem c4_custom_resolver_amended_witness :
    custom_f_part "RUN:A-B-C".toList (some "A".toList) =
      .error (.valueErrorFormat ["A".toList, "B".toList, "C".toList]) :=
  (c4_custom_resolver_amended "RUN:A-B-C".toList (some "A".toList)).1 (by decide)

theorem pySplitC_joinC_slash (fs : List Str) (hne : fs ≠ [])
    (hnos : ∀ f ∈ fs, '/' ∉ f) :
    pySplitC '/' (joinC '/' fs ++ ['/']) = fs ++ [[]] := by
  induction fs with
  | nil => exact absurd rfl hne
  | cons f rest ih =>
    cases rest with
    | nil =>
      show pySplitC '/' (f ++ '/' :: []) = [f, []]
      rw [pySplitC_field '/' f [] (hnos f (List.mem_cons_self _ _))]
      rfl
    | cons g rest2 =>
      show pySplitC '/' ((f ++ '/' :: joinC '/' (g :: rest2)) ++ ['/']) =
        f :: ((g :: rest2) ++ [[]])
      rw [List.append_assoc, List.cons_append]
      rw [pySplitC_field '/' f _ (hnos f (List.mem_cons_self _ _))]
      rw [ih (by simp) (fun x hx => hnos x (List.mem_cons_of_mem _ hx))]

theorem pySplitC_mkPathname (fs : List Str) (hne : fs ≠ [])
    (hnos : ∀ f ∈ fs, '/' ∉ f) :
    pySplitC '/' (mkPathname fs) = [] :: (fs ++ [[]]) := by
  show pySplitC '/' ('/' :: (joinC '/' fs ++ ['/'])) = _
  simp only [pySplitC, if_pos rfl]
  rw [pySplitC_joinC_slash fs hne hnos]
  simp

/-- C6: on a valid 8-field slash-delimited pathname, `extract_field`
(source name `get_path_part`) at each of the roles A..H returns the
slash-delimited segment at that role's fixed position with every space
replaced by an underscore. -/
theorem c6_extract_field (fs : List Str) (h8 : fs.length = 8)
    (hnos : ∀ f ∈ fs, '/' ∉ f) (part : Str) (hp : part ∈ path_parts) :
    get_path_part (mkPathname fs) part =
      .ok (pyReplace ((fs.get? (path_parts.indexOf part)).getD []) [' '] ['_']) := by
  have hne : fs ≠ [] := by intro h; rw [h] at h8; simp at h8
  have hidx : path_parts.indexOf part < 8 := by
    simp only [path_parts, List.mem_cons, List.not_mem_nil, or_false] at hp
    rcases hp with rfl | rfl | rfl | rfl | rfl | rfl | rfl | rfl <;> decide
  unfold get_path_part
  rw [if_pos hp, pySplitC_mkPathname fs hne hnos]
  rw [List.get?_cons_succ]
  rw [List.get?_append (by omega : path_parts.indexOf part < fs.length)]
  rw [List.get?_eq_get (by omega : path_parts.indexOf part < fs.length)]
  rfl

/-- C6 witness: role B of a concrete 8-field pathname, with its space
turned into an underscore. -/
theorem c6_extract_field_witness :
    get_path_part (mkPathname ["a".toList, "el one".toList, "FLOW".toList,
        "d".toList, "e".toList, "f".toList, "g".toList, "h".toList]) ['B'] =
      .ok "el_one".toList := by
  rw [c6_extract_field _ (by decide) (by decide) ['B'] (by decide)]
  decide

/-- C9 (amended): the role-validity check does not make `extract_field`
total.  On a pathname splitting into fewer than nine segments, role H
raises IndexError (not InvalidRoleError, and no value is returned), and
role G likewise when there are fewer than eight segments; but on an
eight-segment pathname — e.g. a real six-field pathname — role G returns
the trailing empty segment instead of raising. -/
theorem c9_get_path_part_amended (p : Str) :
    ((pySplitC '/' p).length < 9 → get_path_part p ['H'] = .error .indexError) ∧
      ((pySplitC '/' p).length < 8 → get_path_part p ['G'] = .error .indexError) := by
  constructor
  · intro h
    unfold get_path_part
    rw [if_pos (by decide)]
    have hnone : (pySplitC '/' p).get? 8 = none := List.get?_eq_none.mpr (by omega)
    rw [show path_parts.indexOf ['H'] + 1 = 8 from rfl, hnone]
  · intro h
    unfold get_path_part
    rw [if_pos (by decide)]
    have hnone : (pySplitC '/' p).get? 7 = none := List.get?_eq_none.mpr (by omega)
    rw [show path_parts.indexOf ['G'] + 1 = 7 from rfl, hnone]

/-- C9 counterexample: a real six-field pathname splits into eight
segments, and role G then returns a value (the empty trailing segment)
rather than raising an index-out-of-range error. -/
theorem c9_get_path_part_counterexample :
    (pySplitC '/' "//Alderson/FLOW/01Jan1996/1Hour/RUN:Cal/".toList).length = 8 ∧
      get_path_part "//Alderson/FLOW/01Jan1996/1Hour/RUN:Cal/".toList ['G'] =
        .ok [] := by
  decide

/-- C9 witness: role H on the same six-field pathname raises IndexError. -/
theorem c9_get_path_part_amended_witness :
    get_path_part "//Alderson/FLOW/01Jan1996/1Hour/RUN:Cal/".toList ['H'] =
      .error .indexError :=
  (c9_get_path_part_amended "//Alderson/FLOW/01Jan1996/1Hour/RUN:Cal/".toList).1
    (by decide)

theorem alookup_setk {β : Type} (m : PyDict β) (k : Str) (v : β) (key : Str) :
    alookup (setk m k v) key = if k = key then some v else alookup m key := by
  induction m with
  | nil =>
    by_cases hk : k = key <;> simp [setk, alookup, hk]
  | cons pr rest ih =>
    obtain ⟨k0, v0⟩ := pr
    by_cases h0 : k0 = k
    · subst h0
      by_cases hk : k0 = key <;> simp [setk, alookup, hk]
    · by_cases hk : k0 = key
      · subst hk
        have hkk : ¬ k = k0 := fun h => h0 h.symm
        simp [setk, alookup, h0, hkk]
      · simp [setk, alookup, h0, hk, ih]

theorem setk_fst {β : Type} (m : PyDict β) (k : Str) (v : β) :
    (setk m k v).map Prod.fst =
      if k ∈ m.map Prod.fst then m.map Prod.fst else m.map Prod.fst ++ [k] := by
  induction m with
  | nil =>
    rw [if_neg (by simp)]
    rfl
  | cons pr rest ih =>
    obtain ⟨k0, v0⟩ := pr
    by_cases h0 : k0 = k
    · subst h0
      rw [show setk ((k0, v0) :: rest) k0 v = (k0, v) :: rest from by
        simp [setk]]
      rw [if_pos (show k0 ∈ ((k0, v0) :: rest).map Prod.fst from by
        rw [List.map_cons]; exact List.mem_cons_self _ _)]
      rfl
    · have hkk : ¬ k = k0 := fun h => h0 h.symm
      rw [show setk ((k0, v0) :: rest) k v = (k0, v0) :: setk rest k v from by
        simp [setk, h0]]
      have hmem : (k ∈ ((k0, v0) :: rest).map Prod.fst) ↔ k ∈ rest.map Prod.fst := by
        rw [List.map_cons]
        constructor
        · intro hin
          rcases List.mem_cons.mp hin with he | hin
          · exact absurd he hkk
          · exact hin
        · exact fun hin => List.mem_cons_of_mem _ hin
      by_cases hk : k ∈ rest.map Prod.fst
      · rw [if_pos (hmem.mpr hk)]
        simp only [List.map_cons]
        rw [ih, if_pos hk]
      · rw [if_neg (fun hin => hk (hmem.mp hin))]
        simp only [List.map_cons, List.cons_append]
        rw [ih, if_neg hk]

theorem setk_fst_nodup {β : Type} {m : PyDict β}
    (h : (m.map Prod.fst).Nodup) (k : Str) (v : β) :
    ((setk m k v).map Prod.fst).Nodup := by
  rw [setk_fst]
  split
  · exact h
  · rename_i hnot
    simp [List.nodup_append, h, hnot]

theorem alookup2_dinsert {α : Type} (d : Dict α) (k b : Str) (v : α)
    (e bq : Str) :
    alookup2 (dinsert d k b v) e bq =
      if k = e ∧ b = bq then some v else alookup2 d e bq := by
  induction d with
  | nil =>
    by_cases hk : k = e
    · subst hk
      by_cases hb : b = bq <;> simp [dinsert, alookup2, alookup, hb]
    · simp [dinsert, alookup2, alookup, hk]
  | cons pr rest ih =>
    obtain ⟨k0, inner⟩ := pr
    by_cases h0 : k0 = k
    · subst h0
      by_cases hk : k0 = e
      · subst hk
        simp only [dinsert, if_pos rfl, alookup2, alookup]
        by_cases hb : b = bq <;> simp [hb, alookup_setk]
      · simp [dinsert, alookup2, alookup, hk]
    · by_cases hk : k0 = e
      · subst hk
        have hkk : ¬ k = k0 := fun h => h0 h.symm
        simp [dinsert, alookup2, alookup, h0, hkk]
      · simp only [dinsert, if_neg h0]
        simp only [alookup2, alookup, if_neg hk]
        exact ih

theorem dinsert_fst {α : Type} (d : Dict α) (k b : Str) (v : α) :
    (dinsert d k b v).map Prod.fst =
      if k ∈ d.map Prod.fst then d.map Prod.fst else d.map Prod.fst ++ [k] := by
  induction d with
  | nil => simp [dinsert]
  | cons pr rest ih =>
    obtain ⟨k0, inner⟩ := pr
    by_cases h0 : k0 = k
    · subst h0
      simp [dinsert]
    · have : ¬ k = k0 := fun h => h0 h.symm
      by_cases hk : k ∈ rest.map Prod.fst <;>
        simp [dinsert, h0, this, hk, ih]

theorem dinsert_mem {α : Type} {d : Dict α} {k b : Str} {v : α}
    {pr : Str × PyDict α} :
    pr ∈ dinsert d k b v →
      pr ∈ d ∨ (∃ inner, (pr.1, inner) ∈ d ∧ pr.2 = setk inner b v) ∨
        pr = (k, [(b, v)]) := by
  induction d with
  | nil =>
    intro h
    right; right
    have hrw : dinsert ([] : Dict α) k b v = [(k, [(b, v)])] := rfl
    rw [hrw] at h
    simpa using h
  | cons hd rest ih =>
    obtain ⟨k0, inner0⟩ := hd
    intro h
    by_cases h0 : k0 = k
    · rw [show dinsert ((k0, inner0) :: rest) k b v =
          (k0, setk inner0 b v) :: rest from by simp [dinsert, h0]] at h
      rcases List.mem_cons.mp h with heq | hmem
      · right; left
        refine ⟨inner0, ?_, ?_⟩
        · rw [heq]
          exact List.mem_cons_self _ _
        · rw [heq]
      · left
        exact List.mem_cons_of_mem _ hmem
    · rw [show dinsert ((k0, inner0) :: rest) k b v =
          (k0, inner0) :: dinsert rest k b v from by simp [dinsert, h0]] at h
      rcases List.mem_cons.mp h with heq | hmem
      · left
        rw [heq]
        exact List.mem_cons_self _ _
      · rcases ih hmem with hm | ⟨inner, hmem2, heq2⟩ | hm
        · exact Or.inl (List.mem_cons_of_mem _ hm)
        · exact Or.inr (Or.inl ⟨inner, List.mem_cons_of_mem _ hmem2, heq2⟩)
        · exact Or.inr (Or.inr hm)

theorem dictNodup_dinsert {α : Type} {d : Dict α} (h : dictNodup d)
    (k b : Str) (v : α) : dictNodup (dinsert d k b v) := by
  obtain ⟨h1, h2⟩ := h
  constructor
  · rw [dinsert_fst]
    split
    · exact h1
    · rename_i hnot
      simp [List.nodup_append, h1, hnot]
  · intro pr hpr
    rcases dinsert_mem hpr with hm | ⟨inner, hmem, heq⟩ | hm
    · exact h2 pr hm
    · rw [heq]
      exact setk_fst_nodup (h2 (pr.1, inner) hmem) b v
    · rw [hm]
      simp

theorem extract_data_loop_fold {α : Type} (read : Str → α) (sp : Option Str)
    (cf : Option (Str → Option Str → Except PyErr Str)) :
    ∀ (l : List Str) (acc : Dict α),
      (∀ p ∈ l, exOk (resolve_entry sp cf p) = true) →
      extract_data_loop read sp cf l acc =
        .ok (l.foldl (loopStep read sp cf) acc) := by
  intro l
  induction l with
  | nil => intro acc _; rfl
  | cons p rest ih =>
    intro acc hall
    have hp := hall p (List.mem_cons_self _ _)
    cases hre : resolve_entry sp cf p with
    | error e => rw [hre] at hp; simp [exOk] at hp
    | ok kb =>
      obtain ⟨k, b⟩ := kb
      simp only [extract_data_loop]
      rw [hre]
      have hstep : loopStep read sp cf acc p = dinsert acc k b (read p) := by
        simp [loopStep, hre]
      rw [List.foldl_cons, hstep]
      exact ih _ (fun x hx => hall x (List.mem_cons_of_mem _ hx))

theorem foldl_loopStep_lookup {α : Type} (read : Str → α) (sp : Option Str)
    (cf : Option (Str → Option Str → Except PyErr Str)) :
    ∀ (l : List Str) (acc : Dict α) (e b : Str),
      (∀ p ∈ l, exOk (resolve_entry sp cf p) = true) →
      alookup2 (l.foldl (loopStep read sp cf) acc) e b =
        (match (l.filter (hits sp cf e b)).getLast? with
          | some p => some (read p)
          | none => alookup2 acc e b) := by
  intro l
  induction l using List.reverseRecOn with
  | nil => intro acc e b _; rfl
  | append_singleton l2 p ih =>
    intro acc e b hall
    rw [List.foldl_append]
    simp only [List.foldl_cons, List.foldl_nil]
    have hp := hall p (by simp)
    cases hre : resolve_entry sp cf p with
    | error e2 => rw [hre] at hp; simp [exOk] at hp
    | ok kb =>
      obtain ⟨kp, bp⟩ := kb
      have hstep : loopStep read sp cf (l2.foldl (loopStep read sp cf) acc) p =
          dinsert (l2.foldl (loopStep read sp cf) acc) kp bp (read p) := by
        simp [loopStep, hre]
      rw [hstep, alookup2_dinsert, List.filter_append]
      by_cases hhit : hits sp cf e b p = true
      · have heb : resolve_entry sp cf p = .ok (e, b) := by
          simpa [hits] using hhit
        rw [hre] at heb
        injection heb with heb
        have hk : kp = e ∧ bp = b := by
          constructor
          · exact congrArg Prod.fst heb
          · exact congrArg Prod.snd heb
        rw [if_pos hk]
        rw [show List.filter (hits sp cf e b) [p] = [p] from by simp [hhit]]
        rw [List.getLast?_concat]
      · have hk : ¬ (kp = e ∧ bp = b) := by
          intro hcon
          apply hhit
          simp [hits, hre, hcon.1, hcon.2]
        rw [if_neg hk]
        rw [show List.filter (hits sp cf e b) [p] = [] from by
          simp [List.filter, hhit]]
        rw [List.append_nil]
        exact ih acc e b (fun x hx => hall x (by simp [hx]))

theorem foldl_loopStep_nodup {α : Type} (read : Str → α) (sp : Option Str)
    (cf : Option (Str → Option Str → Except PyErr Str)) :
    ∀ (l : List Str) (acc : Dict α), dictNodup acc →
      dictNodup (l.foldl (loopStep read sp cf) acc) := by
  intro l
  induction l with
  | nil => intro acc h; exact h
  | cons p rest ih =>
    intro acc h
    rw [List.foldl_cons]
    apply ih
    cases hre : resolve_entry sp cf p with
    | error e =>
      rw [show loopStep read sp cf acc p = acc from by simp [loopStep, hre]]
      exact h
    | ok kb =>
      obtain ⟨k, b⟩ := kb
      rw [show loopStep read sp cf acc p = dinsert acc k b (read p) from by
        simp [loopStep, hre]]
      exact dictNodup_dinsert h k b (read p)

/-- C7: when every deduplicated stem in the list resolves, the extraction
loop succeeds, the returned grouped dataset holds exactly one series per
(event key, element key) pair (duplicate-free keys at both levels), and the
series stored for each pair is the one read for the LAST stem in iteration
order resolving to that pair — a later read silently overwrites an earlier
one, with no error raised. -/
theorem c7_overwrite {α : Type} (read : Str → α) (sp : Option Str)
    (cf : Option (Str → Option Str → Except PyErr Str)) (l : List Str)
    (hall : ∀ p ∈ l, exOk (resolve_entry sp cf p) = true) :
    ∃ d, extract_data_loop read sp cf l [] = .ok d ∧ dictNodup d ∧
      ∀ e b, alookup2 d e b =
        (match (l.filter (hits sp cf e b)).getLast? with
          | some p => some (read p)
          | none => none) := by
  refine ⟨l.foldl (loopStep read sp cf) [],
    extract_data_loop_fold read sp cf l [] hall, ?_, ?_⟩
  · exact foldl_loopStep_nodup read sp cf l []
      ⟨by simp, by intro pr hpr; simp at hpr⟩
  · intro e b
    rw [foldl_loopStep_lookup read sp cf l [] e b hall]
    cases (l.filter (hits sp cf e b)).getLast? <;> rfl

/-- C7 witness: two distinct stems (differing in their A field) resolving
to the same (event, element) pair; the loop returns one entry holding the
series read for the second stem. -/
theorem c7_overwrite_witness :
    ∃ d, extract_data_loop (fun p => p.length) none none
        ["/x/elem/FLOW//1Hour/RUN:r/".toList,
          "/yy/elem/FLOW//1Hour/RUN:r/".toList] [] = .ok d ∧ dictNodup d ∧
      ∀ e b, alookup2 d e b =
        (match ((["/x/elem/FLOW//1Hour/RUN:r/".toList,
            "/yy/elem/FLOW//1Hour/RUN:r/".toList].filter
            (hits none none e b)).getLast?) with
          | some p => some p.length
          | none => none) :=
  c7_overwrite (fun p => p.length) none none
    ["/x/elem/FLOW//1Hour/RUN:r/".toList, "/yy/elem/FLOW//1Hour/RUN:r/".toList]
    (by decide)

/-- C1: the variable-name option is read from the wrong parameter key.
`PLUGIN_PARAMS` declares `c_part_variable` as the optional parameter, but
line 66 of `src/dss_to_zarr.py` reads `params.get("simplify", "FLOW")`:
with `c_part_variable = "PRECIP"` supplied and no `simplify` key, both the
internal pathname pattern's third (C) field and the output dataset's
variable name are the default `"FLOW"`, not `"PRECIP"`.  (The value that is
obtained is indeed used in both places.) -/
theorem c1_variable_key_bug :
    "c_part_variable".toList ∈ PLUGIN_PARAMS_optional ∧
      "simplify".toList ∉ PLUGIN_PARAMS_optional ∧
      c1Params.c_part_variable = some "PRECIP".toList ∧
      c_part_variable_of c1Params = "FLOW".toList ∧
      dss_internal_pathname_pattern c1Params = "/*/*/FLOW/*/*/*/".toList ∧
      mainModel c1Params ⟨true, true⟩ flowWorld =
        .wrote ⟨"main_group".toList, "main_group".toList, "sub_group".toList,
          "FLOW".toList, "s3://b/out.zarr".toList,
          [("RUN:r".toList, [("elem".toList, 0)])], [], []⟩ := by
  decide

/-- C5 (amended): for every invocation that passes the bucket and
credential checks and whose source key's pathlib suffix is not `".dss"`
(the condition `Path(key).suffix != ".dss"` that the source tests), the
pre-flight check fails before any object-store access — the outcome is the
same for every world — and main logs the ValueError and returns nothing. -/
theorem c5_preflight_amended {α : Type} (p : Params) (env : Env) (b : Str)
    (hb1 : p.dss_input_bucket = some b) (hb2 : p.zarr_output_bucket = some b)
    (hk : env.hasKeyId = true) (hs : env.hasSecret = true)
    (hsuf : pathSuffix (p.dss_input_key.getD []) ≠ ".dss".toList) :
    ∀ w : S3World α, mainModel p env w =
      .earlyReturn (.valueErrorNotDss (p.dss_input_key.getD [])) := by
  intro w
  unfold mainModel
  rw [hb1, hb2]
  have hcheck : check_file_exists w.head_ok b (p.dss_input_key.getD []) =
      .error (.valueErrorNotDss (p.dss_input_key.getD [])) := by
    unfold check_file_exists
    rw [if_pos hsuf]
  simp [hk, hs, hcheck]

/-- C5 witness: the key `"data.txt"` has the wrong suffix; for the trivial
world the invocation logs the ValueError and returns nothing. -/
theorem c5_preflight_amended_witness :
    mainModel c5wParams ⟨true, true⟩ trivWorld =
      .earlyReturn (.valueErrorNotDss "data.txt".toList) :=
  c5_preflight_amended c5wParams ⟨true, true⟩ "b".toList rfl rfl rfl rfl
    (by decide) trivWorld

/-- C5 counterexample: the key `"model.dss/"` does not end in `".dss"`,
yet its pathlib suffix is `".dss"` (trailing slashes are dropped), so the
pre-flight check passes and the invocation proceeds all the way to a
written output — refuting the claim that every such invocation fails the
pre-flight before any read and returns nothing. -/
theorem c5_preflight_counterexample :
    (¬ (".dss".toList <:+ "model.dss/".toList)) ∧
      pathSuffix "model.dss/".toList = ".dss".toList ∧
      check_file_exists (fun _ _ => true) "b".toList "model.dss/".toList =
        .ok () ∧
      mainModel c5xParams ⟨true, true⟩ flowWorld =
        .wrote ⟨"main_group".toList, "main_group".toList, "sub_group".toList,
          "FLOW".toList, "s3://b/out.zarr".toList,
          [("RUN:r".toList, [("elem".toList, 0)])], [], []⟩ := by
  decide

/-- C10: when the custom resolver is selected, the expected-context string
handed to it by `main` is exactly the `sub_group_name` option (default
`"sub_group"`), the same value that names the leaf sub-group of the written
output; there is no separate parameter for the expected context. -/
theorem c10_context_is_sub_group {α : Type} (p : Params) (env : Env)
    (w : S3World α) (h : use_custom_of p = true) :
    mainDataDict w.dss p =
      extract_data_from_dss w.dss (dss_internal_pathname_pattern p)
        (some (p.sub_group_name.getD "sub_group".toList))
        (some custom_f_part) ∧
      sub_group_name_of p = p.sub_group_name.getD "sub_group".toList ∧
      ∀ o : WrittenOutput α, mainModel p env w = .wrote o →
        o.subGroupName = p.sub_group_name.getD "sub_group".toList := by
  refine ⟨?_, rfl, ?_⟩
  · simp [mainDataDict, h, sub_group_name_of]
  · intro o ho
    unfold mainModel at ho
    split at ho
    · exact MainOutcome.noConfusion ho
    · exact MainOutcome.noConfusion ho
    · split at ho
      · exact MainOutcome.noConfusion ho
      · split at ho
        · exact MainOutcome.noConfusion ho
        · split at ho
          · exact MainOutcome.noConfusion ho
          · split at ho
            · exact MainOutcome.noConfusion ho
            · split at ho
              · split at ho
                · exact MainOutcome.noConfusion ho
                · exact MainOutcome.noConfusion ho
              · split at ho
                · exact MainOutcome.noConfusion ho
                · injection ho with ho
                  rw [← ho]
                  rfl

/-- C10 witness: with the custom resolver selected and sub-group name
`"Y001"`, the extraction is invoked with expected context `"Y001"` and any
written output's leaf sub-group is also named `"Y001"`. -/
theorem c10_context_is_sub_group_witness :
    mainDataDict flowWorld.dss c10Params =
      extract_data_from_dss flowWorld.dss
        (dss_internal_pathname_pattern c10Params)
        (some "Y001".toList) (some custom_f_part) ∧
      sub_group_name_of c10Params = "Y001".toList ∧
      ∀ o : WrittenOutput Nat,
        mainModel c10Params ⟨true, true⟩ flowWorld = .wrote o →
          o.subGroupName = "Y001".toList :=
  c10_context_is_sub_group c10Params ⟨true, true⟩ flowWorld (by decide)
